import Mathlib

/-!
Verification model of `src/rime/util/score_array.py`: the lazy score-expression
evaluation engine, the low-rank score matrix with its closed-form reindexing,
the batch-size heuristic and the batched full-matrix aggregation driver.

Machine floats are modelled as exact reals extended with signed infinities and
NaN (`SVal`), so the IEEE special cases the source relies on
(`np.log(0) = -inf`, NaN propagation through arithmetic and activations) are
represented faithfully.
-/

namespace ScoreArray

noncomputable section

/-- Model of an IEEE double: NaN, a signed infinity, or an exact finite real
(overflow to infinity is not modelled; finite arithmetic stays exact). -/
inductive SVal where
  | nan : SVal
  | negInf : SVal
  | posInf : SVal
  | fin : ℝ → SVal

namespace SVal

/-- IEEE negation. -/
def neg : SVal → SVal
  | nan => nan
  | negInf => posInf
  | posInf => negInf
  | fin x => fin (-x)

/-- IEEE addition: NaN propagates, opposite infinities give NaN. -/
def add : SVal → SVal → SVal
  | nan, _ => nan
  | _, nan => nan
  | negInf, posInf => nan
  | posInf, negInf => nan
  | negInf, _ => negInf
  | _, negInf => negInf
  | posInf, _ => posInf
  | _, posInf => posInf
  | fin a, fin b => fin (a + b)

/-- IEEE multiplication: NaN propagates and `0 * inf = NaN`. -/
def mul : SVal → SVal → SVal
  | nan, _ => nan
  | _, nan => nan
  | negInf, negInf => posInf
  | negInf, posInf => negInf
  | posInf, negInf => negInf
  | posInf, posInf => posInf
  | negInf, fin x => if x < 0 then posInf else if x = 0 then nan else negInf
  | fin x, negInf => if x < 0 then posInf else if x = 0 then nan else negInf
  | posInf, fin x => if x < 0 then negInf else if x = 0 then nan else posInf
  | fin x, posInf => if x < 0 then negInf else if x = 0 then nan else posInf
  | fin a, fin b => fin (a * b)

/-- IEEE division, as needed by the logistic activation (signed zeros are not
modelled; the paths the code exercises never divide by zero). -/
def div : SVal → SVal → SVal
  | nan, _ => nan
  | _, nan => nan
  | negInf, negInf => nan
  | negInf, posInf => nan
  | posInf, negInf => nan
  | posInf, posInf => nan
  | negInf, fin x => if x < 0 then posInf else negInf
  | posInf, fin x => if x < 0 then negInf else posInf
  | fin _, negInf => fin 0
  | fin _, posInf => fin 0
  | fin a, fin b =>
      if b = 0 then (if a = 0 then nan else if a < 0 then negInf else posInf)
      else fin (a / b)

/-- IEEE natural exponential: `exp (-inf) = 0`, `exp NaN = NaN`. -/
def exp : SVal → SVal
  | nan => nan
  | negInf => fin 0
  | posInf => posInf
  | fin x => fin (Real.exp x)

/-- IEEE natural logarithm: `log 0 = -inf`, negative arguments give NaN. -/
def log : SVal → SVal
  | nan => nan
  | negInf => nan
  | posInf => posInf
  | fin x => if x < 0 then nan else if x = 0 then negInf else fin (Real.log x)

/-- Standard logistic function `1 / (1 + e^(-z))` computed with the IEEE
operations above (matches the numpy expression in the source). -/
def sigmoid (z : SVal) : SVal :=
  div (fin 1) (add (fin 1) (exp (neg z)))

/-- Finite (neither NaN nor infinite) values. -/
def isFinite : SVal → Bool
  | fin _ => true
  | _ => false

@[simp] theorem neg_fin (a : ℝ) : neg (fin a) = fin (-a) := rfl

@[simp] theorem add_fin_fin (a b : ℝ) : add (fin a) (fin b) = fin (a + b) := rfl

@[simp] theorem mul_fin_fin (a b : ℝ) : mul (fin a) (fin b) = fin (a * b) := rfl

@[simp] theorem exp_fin (a : ℝ) : exp (fin a) = fin (Real.exp a) := rfl

theorem add_fin_zero : ∀ z : SVal, add z (fin 0) = z
  | nan => rfl
  | negInf => rfl
  | posInf => rfl
  | fin a => by rw [add_fin_fin, add_zero]

theorem fin_zero_add : ∀ z : SVal, add (fin 0) z = z
  | nan => rfl
  | negInf => rfl
  | posInf => rfl
  | fin a => by rw [add_fin_fin, zero_add]

theorem mul_fin_one : ∀ z : SVal, mul z (fin 1) = z
  | nan => rfl
  | negInf => by simp only [mul]; norm_num
  | posInf => by simp only [mul]; norm_num
  | fin a => by rw [mul_fin_fin, mul_one]

theorem fin_zero_mul {z : SVal} (h : z.isFinite = true) : mul (fin 0) z = fin 0 := by
  cases z with
  | fin a => rw [mul_fin_fin, zero_mul]
  | nan => simp [isFinite] at h
  | negInf => simp [isFinite] at h
  | posInf => simp [isFinite] at h

theorem add_assoc2 : ∀ x y z : SVal, add (add x y) z = add x (add y z) := by
  intro x y z
  cases x <;> cases y <;> cases z <;> simp [add, add_assoc]

theorem add_comm2 : ∀ x y : SVal, add x y = add y x := by
  intro x y
  cases x <;> cases y <;> simp [add, add_comm]

end SVal

/-- Dot product of a row of `A` with a row of `B`: one entry of the numpy
product `A @ B.T`. -/
def dotS (u w : List SVal) : SVal :=
  (List.zipWith SVal.mul u w).foldr SVal.add (SVal.fin 0)

/-- Admissible activations; `__post_init__` asserts membership in
`['exp', 'sigmoid']`, so this is an enumeration by construction. -/
inductive Act where
  | exp : Act
  | sigmoid : Act
deriving DecidableEq

/-- Apply the activation to one entry. -/
def Act.apply : Act → SVal → SVal
  | .exp, z => z.exp
  | .sigmoid, z => z.sigmoid

/-- Dense evaluation results: a list of rows. -/
abbrev Mat := List (List SVal)

/-- Entry `(i, j)` of a dense matrix (defaults only matter out of range). -/
def entryM (M : Mat) (i j : ℕ) : SVal := (M.getD i []).getD j (SVal.fin 0)

/-- Rectangularity: every row has length `k` (numpy arrays are rectangular). -/
def rect (rows : Mat) (k : ℕ) : Prop := ∀ r ∈ rows, r.length = k

/-- numpy fancy row indexing `M[ks]` with a list of row positions. -/
def selRows (M : Mat) (ks : List ℕ) : Mat := ks.map fun i => M.getD i []

/-- numpy transpose of a rectangular array; the column count is read off the
first row, as numpy reads it off the stored shape. -/
def transposeM (M : Mat) : Mat :=
  (List.range (M.headD []).length).map fun j => M.map fun r => r.getD j (SVal.fin 0)

/-- Low-rank score matrix `activation(ind_logits @ col_logits.T)` with row
labels `index` and column labels `columns` (labels modelled as naturals). -/
structure LowRankDataFrame where
  ind_logits : Mat
  col_logits : Mat
  index : List ℕ
  columns : List ℕ
  act : Act

/-- Row-slice keys of `__getitem__`: a scalar row index or a sequence. -/
inductive Key where
  | single (i : ℕ) : Key
  | seq (ks : List ℕ) : Key

/-- The normalization `if np.isscalar(key): key = [key]`. -/
def Key.norm : Key → List ℕ
  | .single i => [i]
  | .seq ks => ks

namespace LowRankDataFrame

/-- Construction invariants checked by `__post_init__`, at hidden rank `k`:
both factor matrices are rectangular with the same hidden dimension and their
outer dimensions match the label sequences. -/
def wfAt (m : LowRankDataFrame) (k : ℕ) : Prop :=
  rect m.ind_logits k ∧ rect m.col_logits k ∧
    m.ind_logits.length = m.index.length ∧ m.col_logits.length = m.columns.length

/-- The `shape` property `(len(ind_logits), len(col_logits))`. -/
def shape (m : LowRankDataFrame) : ℕ × ℕ := (m.ind_logits.length, m.col_logits.length)

/-- Hidden rank, i.e. `shape[1]` of the factor arrays (read off whichever
factor matrix has a row; numpy stores it in the shape). -/
def hidden_dim (m : LowRankDataFrame) : ℕ :=
  ((m.ind_logits ++ m.col_logits).headD []).length

/-- Deviceless `eval`: `act(ind_logits @ col_logits.T)` as a dense matrix. -/
def eval (m : LowRankDataFrame) : Mat :=
  m.ind_logits.map fun r => m.col_logits.map fun c => m.act.apply (dotS r c)

/-- Model of `__getitem__`: normalize the key, then select rows of
`ind_logits` and of `index`; column data and activation are shared. -/
def getitem (m : LowRankDataFrame) (key : Key) : LowRankDataFrame :=
  { ind_logits := selRows m.ind_logits key.norm
    col_logits := m.col_logits
    index := key.norm.map fun i => m.index.getD i 0
    columns := m.columns
    act := m.act }

/-- The `T` property: swap the factor matrices and the label sequences. -/
def T (m : LowRankDataFrame) : LowRankDataFrame :=
  ⟨m.col_logits, m.ind_logits, m.columns, m.index, m.act⟩

/-- Model of `collate_fn`: stack `ind_logits` row-wise and concatenate
`index`; `col_logits`, `columns` and `act` come from the first element (the
source reads `batch[0]`, an error on an empty batch; an empty dummy stands in
for that unreachable case). -/
def collate_fn (batch : List LowRankDataFrame) : LowRankDataFrame :=
  { ind_logits := (batch.map ind_logits).flatten
    col_logits := (batch.headD ⟨[], [], [], [], Act.exp⟩).col_logits
    index := (batch.map index).flatten
    columns := (batch.headD ⟨[], [], [], [], Act.exp⟩).columns
    act := (batch.headD ⟨[], [], [], [], Act.exp⟩).act }

/-- Model of `reindex(index, axis=0, fill_value)`: pad `ind_logits` with one
zero column plus one synthetic row `(0, ..., 0, log fill_value)`, pad
`col_logits` with a ones column, and gather rows through the label-position
map that sends absent labels to the synthetic row (the source encodes absence
as `-1`, which numpy resolves to the last, synthetic, row). -/
def reindex (m : LowRankDataFrame) (labels : List ℕ) (v : SVal) : LowRankDataFrame :=
  ⟨selRows ((m.ind_logits.map fun r => r ++ [SVal.fin 0])
      ++ [List.replicate m.hidden_dim (SVal.fin 0) ++ [SVal.log v]])
      (labels.map fun l => m.index.indexOf l),
    m.col_logits.map fun r => r ++ [SVal.fin 1],
    labels, m.columns, m.act⟩

end LowRankDataFrame

/-- Binary operators produced by `__add__` / `__mul__`. -/
inductive SOp where
  | add : SOp
  | mul : SOp
deriving DecidableEq

/-- The numeric function of an operator node. -/
def SOp.fn : SOp → SVal → SVal → SVal
  | .add => SVal.add
  | .mul => SVal.mul

/-- Operand tree of the lazy algebra: scalars, dense arrays, scipy sparse
matrices (carried by their dense-equal values), low-rank frames, and binary
expression nodes (the source builds binary `LazyScoreExpression` nodes in
`__add__` / `__mul__`; `clip` is a unary node not needed by any claim). -/
inductive LazyScoreExpression where
  | scalar (v : SVal) : LazyScoreExpression
  | dense (d : Mat) : LazyScoreExpression
  | sparse (d : Mat) : LazyScoreExpression
  | lowrank (m : LowRankDataFrame) : LazyScoreExpression
  | node (op : SOp) (a b : LazyScoreExpression) : LazyScoreExpression

/-- Result of `_auto_eval` on an operand: a scalar passes through, every other
kind densifies to a matrix. -/
inductive EvalRes where
  | scalar (v : SVal) : EvalRes
  | mat (M : Mat) : EvalRes

/-- numpy broadcasting of a binary ufunc over two evaluation results (the
source checks equal shapes for non-scalar operands, so only the scalar
broadcast and the equal-shape case arise). -/
def broadcast2 (f : SVal → SVal → SVal) : EvalRes → EvalRes → EvalRes
  | .scalar a, .scalar b => .scalar (f a b)
  | .scalar a, .mat M => .mat (M.map fun r => r.map fun x => f a x)
  | .mat M, .scalar b => .mat (M.map fun r => r.map fun x => f x b)
  | .mat M, .mat N => .mat (List.zipWith (fun r s => List.zipWith f r s) M N)

/-- Deviceless `eval` of the expression tree: `_auto_eval` every child, then
apply the node operator. -/
def evalE : LazyScoreExpression → EvalRes
  | .scalar v => .scalar v
  | .dense d => .mat d
  | .sparse d => .mat d
  | .lowrank m => .mat m.eval
  | .node op a b => broadcast2 op.fn (evalE a) (evalE b)

/-- Entry access on a result, broadcasting scalars. -/
def resEntry : EvalRes → ℕ → ℕ → SVal
  | .scalar v, _, _ => v
  | .mat M, i, j => entryM M i j

/-- All entries of an evaluated batch in row-major order (the set that
`val.max()` / `val.min()` reduce over). -/
def entriesOf : EvalRes → List SVal
  | .scalar v => [v]
  | .mat M => M.flatten

/-- Scalar test `np.isscalar`. -/
def isScalarB : LazyScoreExpression → Bool
  | .scalar _ => true
  | _ => false

/-- Shape discipline of a non-scalar operand: a node copies its shape from
`children[0]` (never a scalar, per `__add__` / `__mul__`), and
`_check_index_columns` requires every non-scalar sibling to share it. -/
def hasShape : LazyScoreExpression → ℕ → ℕ → Prop
  | .scalar _, _, _ => False
  | .dense d, r, c => d.length = r ∧ rect d c
  | .sparse d, r, c => d.length = r ∧ rect d c
  | .lowrank m, r, c => m.ind_logits.length = r ∧ m.col_logits.length = c
  | .node _ a b, r, c => hasShape a r c ∧ (isScalarB b = true ∨ hasShape b r c)

/-- Row slicing on the tree (`__getitem__` body after key normalization):
`_auto_getitem` passes scalars through and indexes every other child. -/
def rowSliceL : LazyScoreExpression → List ℕ → LazyScoreExpression
  | .scalar v, _ => .scalar v
  | .dense d, ks => .dense (selRows d ks)
  | .sparse d, ks => .sparse (selRows d ks)
  | .lowrank m, ks => .lowrank (m.getitem (.seq ks))
  | .node op a b, ks => .node op (rowSliceL a ks) (rowSliceL b ks)

/-- Model of `LazyScoreExpression.__getitem__`: normalize, then slice. -/
def getitemE (e : LazyScoreExpression) (key : Key) : LazyScoreExpression :=
  rowSliceL e key.norm

/-- The `T` property on the tree: transpose every non-scalar child, keep the
operator. -/
def transposeE : LazyScoreExpression → LazyScoreExpression
  | .scalar v => .scalar v
  | .dense d => .dense (transposeM d)
  | .sparse d => .sparse (transposeM d)
  | .lowrank m => .lowrank m.T
  | .node op a b => .node op (transposeE a) (transposeE b)

/-- Expressions whose leaves are scalars and dense arrays only. -/
def denseOnly : LazyScoreExpression → Prop
  | .scalar _ => True
  | .dense _ => True
  | .sparse _ => False
  | .lowrank _ => False
  | .node _ a b => denseOnly a ∧ denseOnly b

/-- `len(S)`, i.e. `shape[0]` read off `children[0]` (junk 0 on a bare scalar,
where the source would fail). -/
def numRows : LazyScoreExpression → ℕ
  | .scalar _ => 0
  | .dense d => d.length
  | .sparse d => d.length
  | .lowrank m => m.ind_logits.length
  | .node _ a _ => numRows a

/-- Consecutive batches of size `b` as produced by the loader over row indices
(the final short batch is kept). -/
def toBatches {α : Type*} (b : ℕ) : List α → List (List α)
  | [] => []
  | x :: xs => (x :: xs.take (b - 1)) :: toBatches b (xs.drop (b - 1))
termination_by l => l.length
decreasing_by
  simp only [List.length_cons, List.length_drop]
  omega

/-- Reduction of a flat value list by `op` (numpy raises on an empty array;
that failure is `none`). -/
def reduce1 (op : SVal → SVal → SVal) : List SVal → Option SVal
  | [] => none
  | x :: xs => some (xs.foldl op x)

/-- The running fold of `score_op`: `out = new if out is None else op(out, new)`;
a failed batch reduction aborts the whole computation (the numpy exception). -/
def foldScalars (op : SVal → SVal → SVal) : Option SVal → List (Option SVal) → Option SVal
  | out, [] => out
  | out, b :: rest =>
      match b, out with
      | none, _ => none
      | some new, none => foldScalars op (some new) rest
      | some new, some o => foldScalars op (some (op o new)) rest

/-- Model of `score_op(S, op)`: batch the row range `0..len(S)-1` with batch
size `bs` (the source passes `bs = S.batch_size = get_batch_size(S.shape)`;
it is a parameter here so the guarantee can be stated for every batch size),
row-slice the expression per batch, evaluate, reduce each batch to a scalar
with `op`, and fold the batch scalars with the same `op`, starting from the
first one.  With no batches the loop never runs and the initial `None` is
returned. -/
def score_op (S : LazyScoreExpression) (op : SVal → SVal → SVal) (bs : ℕ) : Option SVal :=
  foldScalars op none
    ((toBatches bs (List.range (numRows S))).map fun ks =>
      reduce1 op (entriesOf (evalE (rowSliceL S ks))))

/-- Python `int()` on an exact rational: truncation toward zero. -/
def ratTrunc (q : ℚ) : ℤ := if 0 ≤ q then ⌊q⌋ else -⌊-q⌋

/-- Model of `get_batch_size(shape, frac=0.1)`.  The source reads the
accelerator's total memory when `torch.cuda.device_count()` is nonzero and
falls back to `16e9`; the optional reported memory is an explicit parameter
here.  Floats are idealized as exact rationals. -/
def get_batch_size (shape : ℕ × ℕ) (cudaMemory : Option ℚ) (frac : ℚ) : ℕ :=
  (⌈(shape.1 : ℚ) /
      ((ratTrunc ((shape.1 : ℚ) / (cudaMemory.getD (16 * 10 ^ 9) / 8 / (shape.2 : ℚ) * frac))
        + 1 : ℤ) : ℚ)⌉).toNat

/-- Specification-side formula, written from the claim's words: return
`ceil(n_rows / n_batches)` where `n_batches = floor(n_rows / m) + 1` and
`m = total_memory / 8 / n_cols * fraction`, with `total_memory` the reported
accelerator memory if present and 16 GB otherwise. -/
def spec_batch_size (shape : ℕ × ℕ) (cudaMemory : Option ℚ) (frac : ℚ) : ℕ :=
  (⌈(shape.1 : ℚ) /
      ((⌊(shape.1 : ℚ) / (cudaMemory.getD (16 * 10 ^ 9) / 8 / (shape.2 : ℚ) * frac)⌋
        + 1 : ℤ) : ℚ)⌉).toNat

/-- Fill values that the activation reproduces exactly through the
log-augmentation of `reindex`: for `exp`, NaN or any nonnegative real
(`exp (log v) = v`, with `log 0 = -inf` tolerated); for `sigmoid`, only NaN
and `0` (since `sigmoid (log v) = v / (1 + v)` for positive `v`). -/
def FillOk : Act → SVal → Prop
  | _, .nan => True
  | .exp, .fin x => 0 ≤ x
  | .sigmoid, .fin x => x = 0
  | _, _ => False

/-! ### General list facts used to relate batched and whole-matrix views -/

theorem getD_map {α β : Type*} (f : α → β) (l : List α) (i : ℕ) (da : α) (db : β)
    (h : i < l.length) : (l.map f).getD i db = f (l.getD i da) := by
  rw [List.getD_eq_getElem _ _ h,
    List.getD_eq_getElem _ _ (show i < (l.map f).length by simpa using h)]
  simp

theorem getD_zipWith {α β γ : Type*} (f : α → β → γ) (as : List α) (bs : List β)
    (i : ℕ) (da : α) (db : β) (dg : γ) (ha : i < as.length) (hb : i < bs.length) :
    (List.zipWith f as bs).getD i dg = f (as.getD i da) (bs.getD i db) := by
  rw [List.getD_eq_getElem _ _ ha, List.getD_eq_getElem _ _ hb,
    List.getD_eq_getElem _ _ (show i < (List.zipWith f as bs).length by
      rw [List.length_zipWith]; omega)]
  simp

theorem getD_mem {α : Type*} (l : List α) (i : ℕ) (d : α) (h : i < l.length) :
    l.getD i d ∈ l := by
  rw [List.getD_eq_getElem _ _ h]
  exact List.getElem_mem h

theorem zipWith_map_same {α β γ δ : Type*} (f : β → γ → δ) (g : α → β) (h : α → γ) :
    ∀ l : List α, List.zipWith f (l.map g) (l.map h) = l.map fun x => f (g x) (h x)
  | [] => rfl
  | x :: xs => by
    simp only [List.map_cons, List.zipWith_cons_cons]
    rw [zipWith_map_same f g h xs]

theorem range_map_getD {α : Type*} (dflt : α) : ∀ l : List α,
    (List.range l.length).map (fun i => l.getD i dflt) = l
  | [] => rfl
  | x :: xs => by
    rw [List.length_cons, List.range_succ_eq_map, List.map_cons, List.map_map]
    have h2 : List.map ((fun i => (x :: xs).getD i dflt) ∘ fun i => i + 1)
        (List.range xs.length) = List.map (fun i => xs.getD i dflt) (List.range xs.length) :=
      List.map_congr_left fun a _ => rfl
    rw [h2, range_map_getD dflt xs]
    rfl

theorem flatten_toBatches {α : Type*} (b : ℕ) : ∀ l : List α, (toBatches b l).flatten = l
  | [] => by simp [toBatches]
  | x :: xs => by
    rw [toBatches, List.flatten_cons, flatten_toBatches b (xs.drop (b - 1)),
      List.cons_append, List.take_append_drop]
termination_by l => l.length
decreasing_by
  simp only [List.length_cons, List.length_drop]
  omega

theorem toBatches_ne_nil {α : Type*} (b : ℕ) : ∀ l : List α, ∀ ks ∈ toBatches b l, ks ≠ []
  | [], ks, h => by simp [toBatches] at h
  | x :: xs, ks, h => by
    rw [toBatches, List.mem_cons] at h
    rcases h with h | h
    · subst h; simp
    · exact toBatches_ne_nil b (xs.drop (b - 1)) ks h
termination_by l => l.length
decreasing_by
  simp only [List.length_cons, List.length_drop]
  omega

theorem toBatches_subset {α : Type*} (b : ℕ) (l : List α) {ks : List α}
    (hks : ks ∈ toBatches b l) {t : α} (ht : t ∈ ks) : t ∈ l := by
  rw [← flatten_toBatches b l]
  exact List.mem_flatten.2 ⟨ks, hks, ht⟩

/-! ### Dot-product facts behind the augmented reindex factorization -/

theorem dotS_pad (u w : List SVal) (h : u.length = w.length) :
    dotS (u ++ [SVal.fin 0]) (w ++ [SVal.fin 1]) = dotS u w := by
  unfold dotS
  rw [List.zipWith_append _ _ _ _ _ h, List.foldr_append]
  have h1 : (List.zipWith SVal.mul [SVal.fin 0] [SVal.fin 1]).foldr SVal.add (SVal.fin 0)
      = SVal.fin 0 := by
    simp only [List.zipWith_cons_cons, List.zipWith_nil_right, List.foldr_cons, List.foldr_nil,
      SVal.mul_fin_fin, SVal.add_fin_fin]
    norm_num
  rw [h1]

theorem foldr_zip_zero : ∀ w : List SVal, (∀ x ∈ w, x.isFinite = true) →
    ∀ (k : ℕ) (z : SVal),
      (List.zipWith SVal.mul (List.replicate k (SVal.fin 0)) w).foldr SVal.add z = z
  | [], _, k, z => by cases k <;> rfl
  | c :: cs, h, 0, z => rfl
  | c :: cs, h, k + 1, z => by
    simp only [List.replicate_succ, List.zipWith_cons_cons, List.foldr_cons]
    rw [foldr_zip_zero cs (fun x hx => h x (by simp [hx])) k z,
      SVal.fin_zero_mul (h c (by simp)), SVal.fin_zero_add]

theorem dotS_synth (w : List SVal) (k : ℕ) (hw : w.length = k)
    (hfin : ∀ x ∈ w, x.isFinite = true) (v : SVal) :
    dotS (List.replicate k (SVal.fin 0) ++ [SVal.log v]) (w ++ [SVal.fin 1]) = SVal.log v := by
  unfold dotS
  rw [List.zipWith_append _ _ _ _ _ (by simp [hw]), List.foldr_append]
  have h1 : (List.zipWith SVal.mul [SVal.log v] [SVal.fin 1]).foldr SVal.add (SVal.fin 0)
      = SVal.log v := by
    simp only [List.zipWith_cons_cons, List.zipWith_nil_right, List.foldr_cons, List.foldr_nil]
    rw [SVal.mul_fin_one, SVal.add_fin_zero]
  rw [h1, foldr_zip_zero w hfin k (SVal.log v)]

/-- The activation inverts the log-augmentation exactly on admissible fill
values (this is what makes the synthetic row evaluate to the fill value). -/
theorem apply_log (a : Act) (v : SVal) (h : FillOk a v) : a.apply (SVal.log v) = v := by
  cases a with
  | exp =>
    cases v with
    | nan => rfl
    | negInf => exact absurd h (by simp [FillOk])
    | posInf => rfl
    | fin x =>
      have hx : 0 ≤ x := h
      rcases eq_or_lt_of_le hx with h0 | h0
      · rw [← h0]
        have hl : SVal.log (SVal.fin 0) = SVal.negInf := by simp [SVal.log]
        rw [hl]; rfl
      · have hl : SVal.log (SVal.fin x) = SVal.fin (Real.log x) := by
          simp [SVal.log, not_lt.2 hx, h0.ne']
        rw [hl]
        show SVal.exp (SVal.fin (Real.log x)) = SVal.fin x
        rw [SVal.exp_fin, Real.exp_log h0]
  | sigmoid =>
    cases v with
    | nan => rfl
    | negInf => exact absurd h (by simp [FillOk])
    | posInf => exact absurd h (by simp [FillOk])
    | fin x =>
      have hx : x = 0 := h
      rw [hx]
      have hl : SVal.log (SVal.fin 0) = SVal.negInf := by simp [SVal.log]
      rw [hl]; rfl

theorem hidden_dim_eq {m : LowRankDataFrame} {k : ℕ}
    (h1 : rect m.ind_logits k) (h2 : rect m.col_logits k) (hc : m.col_logits ≠ []) :
    m.hidden_dim = k := by
  unfold LowRankDataFrame.hidden_dim
  cases hi : m.ind_logits with
  | nil =>
    rw [List.nil_append]
    cases hcc : m.col_logits with
    | nil => exact absurd hcc hc
    | cons c cs => simpa using h2 c (by simp [hcc])
  | cons r rs => simpa using h1 r (by simp [hi])

/-! ### Shape and slicing facts for the expression tree -/

/-- The matrix of a non-scalar evaluation result (junk on scalars). -/
def matOf : EvalRes → Mat
  | .scalar _ => []
  | .mat M => M

theorem evalE_shape : ∀ (S : LazyScoreExpression) (R C : ℕ), hasShape S R C →
    ∃ M, evalE S = .mat M ∧ M.length = R ∧ rect M C
  | .scalar _, _, _, h => h.elim
  | .dense d, _, _, h => ⟨d, rfl, h.1, h.2⟩
  | .sparse d, _, _, h => ⟨d, rfl, h.1, h.2⟩
  | .lowrank m, R, C, h => by
    refine ⟨m.eval, rfl, ?_, ?_⟩
    · simpa [LowRankDataFrame.eval] using h.1
    · intro r hr
      obtain ⟨u, -, rfl⟩ := List.mem_map.1 hr
      simpa using h.2
  | .node op a b, R, C, h => by
    obtain ⟨hA, hB⟩ := h
    obtain ⟨Ma, hMa, hla, hra⟩ := evalE_shape a R C hA
    rcases hB with hb | hb
    · cases b with
      | scalar v =>
        refine ⟨Ma.map fun r => r.map fun x => op.fn x v, ?_, by simpa, ?_⟩
        · simp [evalE, hMa, broadcast2]
        · intro r hr
          obtain ⟨u, hu, rfl⟩ := List.mem_map.1 hr
          simpa using hra u hu
      | dense d => simp [isScalarB] at hb
      | sparse d => simp [isScalarB] at hb
      | lowrank mm => simp [isScalarB] at hb
      | node o x y => simp [isScalarB] at hb
    · obtain ⟨Mb, hMb, hlb, hrb⟩ := evalE_shape b R C hb
      refine ⟨List.zipWith (fun r s => List.zipWith op.fn r s) Ma Mb, ?_, ?_, ?_⟩
      · simp [evalE, hMa, hMb, broadcast2]
      · simp [List.length_zipWith, hla, hlb]
      · intro r hr
        obtain ⟨i, hi, rfl⟩ := List.mem_iff_getElem.1 hr
        rw [List.getElem_zipWith, List.length_zipWith]
        have hi2 : i < Ma.length ∧ i < Mb.length := by
          rw [List.length_zipWith] at hi
          omega
        rw [hra _ (List.getElem_mem hi2.1), hrb _ (List.getElem_mem hi2.2), min_self]

theorem numRows_eq : ∀ (S : LazyScoreExpression) (R C : ℕ), hasShape S R C → numRows S = R
  | .scalar _, _, _, h => h.elim
  | .dense _, _, _, h => h.1
  | .sparse _, _, _, h => h.1
  | .lowrank _, _, _, h => h.1
  | .node _ a _, R, C, h => numRows_eq a R C h.1

theorem rowSlice_evalE : ∀ (S : LazyScoreExpression) (R C : ℕ) (ks : List ℕ),
    hasShape S R C → (∀ t ∈ ks, t < R) →
    evalE (rowSliceL S ks) = .mat (selRows (matOf (evalE S)) ks)
  | .scalar _, _, _, _, h, _ => h.elim
  | .dense d, _, _, ks, h, hks => rfl
  | .sparse d, _, _, ks, h, hks => rfl
  | .lowrank m, R, C, ks, h, hks => by
    simp only [rowSliceL, evalE, matOf]
    congr 1
    unfold LowRankDataFrame.eval LowRankDataFrame.getitem selRows Key.norm
    simp only [List.map_map]
    refine List.map_congr_left fun t ht => ?_
    simp only [Function.comp_apply]
    exact (getD_map (fun r => List.map (fun c => m.act.apply (dotS r c)) m.col_logits)
      m.ind_logits t [] [] (h.1 ▸ hks t ht)).symm
  | .node op a b, R, C, ks, h, hks => by
    obtain ⟨hA, hB⟩ := h
    have IHa := rowSlice_evalE a R C ks hA hks
    obtain ⟨Ma, hMa, hla, hra⟩ := evalE_shape a R C hA
    rcases hB with hb | hb
    · cases b with
      | scalar v =>
        simp only [rowSliceL, evalE, IHa, hMa, matOf, broadcast2]
        congr 1
        unfold selRows
        simp only [List.map_map]
        refine List.map_congr_left fun t ht => ?_
        simp only [Function.comp_apply]
        exact (getD_map _ Ma t [] [] (hla ▸ hks t ht)).symm
      | dense d => simp [isScalarB] at hb
      | sparse d => simp [isScalarB] at hb
      | lowrank mm => simp [isScalarB] at hb
      | node o x y => simp [isScalarB] at hb
    · obtain ⟨Mb, hMb, hlb, hrb⟩ := evalE_shape b R C hb
      have IHb := rowSlice_evalE b R C ks hb hks
      simp only [rowSliceL, evalE, IHa, IHb, hMa, hMb, matOf, broadcast2]
      congr 1
      unfold selRows
      rw [zipWith_map_same]
      refine List.map_congr_left fun t ht => ?_
      exact (getD_zipWith _ Ma Mb t [] [] [] (hla ▸ hks t ht) (hlb ▸ hks t ht)).symm

/-- Entry formula of the low-rank evaluation: one dot product through the
activation. -/
theorem eval_entry (m : LowRankDataFrame) (i j : ℕ) (hi : i < m.ind_logits.length)
    (hj : j < m.col_logits.length) :
    entryM m.eval i j = m.act.apply (dotS (m.ind_logits.getD i []) (m.col_logits.getD j [])) := by
  unfold entryM LowRankDataFrame.eval
  rw [getD_map _ m.ind_logits i [] [] hi, getD_map _ m.col_logits j [] (SVal.fin 0) hj]

/-! ### Fold facts for batched aggregation -/

theorem foldl_op_left (op : SVal → SVal → SVal)
    (hassoc : ∀ x y z, op (op x y) z = op x (op y z)) :
    ∀ (L : List SVal) (x y : SVal), L.foldl op (op x y) = op x (L.foldl op y)
  | [], _, _ => rfl
  | c :: L, x, y => by
    simp only [List.foldl_cons]
    rw [hassoc x y c, foldl_op_left op hassoc L x (op y c)]

theorem foldScalars_batches (op : SVal → SVal → SVal)
    (hassoc : ∀ x y z, op (op x y) z = op x (op y z)) :
    ∀ (Es : List (List SVal)) (acc : SVal), (∀ E ∈ Es, E ≠ []) →
      foldScalars op (some acc) (Es.map (reduce1 op)) = some (Es.flatten.foldl op acc)
  | [], acc, _ => rfl
  | E :: Es, acc, h => by
    obtain ⟨e, es, rfl⟩ : ∃ e es, E = e :: es := by
      cases E with
      | nil => exact absurd rfl (h [] (by simp))
      | cons e es => exact ⟨e, es, rfl⟩
    simp only [List.map_cons, reduce1, foldScalars, List.flatten_cons]
    rw [foldScalars_batches op hassoc Es (op acc (es.foldl op e))
      (fun E hE => h E (by simp [hE]))]
    rw [List.foldl_append, List.foldl_cons, foldl_op_left op hassoc es acc e]

theorem transposeM_invol {d : Mat} {c : ℕ} (hrect : rect d c) (hc : 0 < c) :
    transposeM (transposeM d) = d := by
  cases d with
  | nil => rfl
  | cons r0 rs =>
    have hr0 : r0.length = c := hrect r0 (by simp)
    have h1 : transposeM (r0 :: rs)
        = (List.range c).map fun j => (r0 :: rs).map fun r => r.getD j (SVal.fin 0) := by
      unfold transposeM
      rw [show ((r0 :: rs).headD []).length = c from hr0]
    have h2 : (transposeM (r0 :: rs)).headD []
        = (r0 :: rs).map fun r => r.getD 0 (SVal.fin 0) := by
      rw [h1]
      obtain ⟨c2, rfl⟩ : ∃ c2, c = c2 + 1 := ⟨c - 1, by omega⟩
      rw [List.range_succ_eq_map]
      rfl
    have h4 : ∀ i < (r0 :: rs).length,
        (transposeM (r0 :: rs)).map (fun col => col.getD i (SVal.fin 0))
          = (r0 :: rs).getD i [] := by
      intro i hi
      rw [h1, List.map_map]
      have h5 : List.map ((fun col => col.getD i (SVal.fin 0)) ∘
            fun j => (r0 :: rs).map fun r => r.getD j (SVal.fin 0)) (List.range c)
          = List.map (fun j => ((r0 :: rs).getD i []).getD j (SVal.fin 0)) (List.range c) :=
        List.map_congr_left fun j _ => by
          simp only [Function.comp_apply]
          exact getD_map (fun r => r.getD j (SVal.fin 0)) (r0 :: rs) i [] (SVal.fin 0) hi
      rw [h5]
      have hlen2 : ((r0 :: rs).getD i []).length = c := hrect _ (getD_mem _ _ _ hi)
      rw [← hlen2, range_map_getD]
    have hlen : ((transposeM (r0 :: rs)).headD []).length = (r0 :: rs).length := by
      rw [h2, List.length_map]
    set T := transposeM (r0 :: rs) with hT
    show transposeM T = r0 :: rs
    unfold transposeM
    rw [hlen]
    have h6 : List.map (fun i => T.map fun col => col.getD i (SVal.fin 0))
        (List.range (r0 :: rs).length)
        = List.map (fun i => (r0 :: rs).getD i []) (List.range (r0 :: rs).length) :=
      List.map_congr_left fun i hi => h4 i (List.mem_range.1 hi)
    rw [h6, range_map_getD]

theorem transposeE_invol : ∀ (e : LazyScoreExpression) (R C : ℕ), denseOnly e →
    hasShape e R C → 0 < C → transposeE (transposeE e) = e
  | .scalar _, _, _, _, _, _ => rfl
  | .dense d, R, C, _, h, hC => by
    simp only [transposeE]
    rw [transposeM_invol h.2 hC]
  | .sparse _, _, _, hd, _, _ => hd.elim
  | .lowrank _, _, _, hd, _, _ => hd.elim
  | .node op a b, R, C, hd, h, hC => by
    simp only [transposeE]
    rw [transposeE_invol a R C hd.1 h.1 hC]
    rcases h.2 with hb | hb
    · cases b with
      | scalar v => rfl
      | dense d => simp [isScalarB] at hb
      | sparse d => simp [isScalarB] at hb
      | lowrank mm => simp [isScalarB] at hb
      | node o x y => simp [isScalarB] at hb
    · rw [transposeE_invol b R C hd.2 hb hC]

/-! ### Concrete instances used by witnesses and counterexamples -/

/-- The concrete scenario of the spec: `row_factors = [[1,0],[0,1]]`,
`col_factors = [[1,1],[1,0]]`, activation `exp`. -/
def exLR : LowRankDataFrame :=
  ⟨[[SVal.fin 1, SVal.fin 0], [SVal.fin 0, SVal.fin 1]],
    [[SVal.fin 1, SVal.fin 1], [SVal.fin 1, SVal.fin 0]], [0, 1], [0, 1], Act.exp⟩

/-- A small composed expression over dense operands. -/
def exE : LazyScoreExpression :=
  .node .add (.dense [[SVal.fin 1], [SVal.fin 2]]) (.scalar (SVal.fin 3))

/-! ### Claims -/

/-- C2: deviceless `eval` of a Low-Rank Score Matrix computes
`row_factors · col_factorsᵗ` entrywise and applies the activation, where `exp`
is the natural exponential and `sigmoid` the standard logistic
`1 / (1 + e^(-z))`; on the spec's concrete scenario the evaluated matrix is
`[[e^1, e^1], [e^1, e^0]]` (checked in the witness). -/
theorem claim_C2 :
    (∀ (m : LowRankDataFrame) (i j : ℕ), i < m.ind_logits.length → j < m.col_logits.length →
      entryM m.eval i j
        = m.act.apply (dotS (m.ind_logits.getD i []) (m.col_logits.getD j [])))
    ∧ (∀ z : ℝ, Act.apply Act.exp (SVal.fin z) = SVal.fin (Real.exp z))
    ∧ (∀ z : ℝ, Act.apply Act.sigmoid (SVal.fin z) = SVal.fin (1 / (1 + Real.exp (-z)))) := by
  refine ⟨fun m i j hi hj => eval_entry m i j hi hj, fun z => rfl, fun z => ?_⟩
  show SVal.div (SVal.fin 1) (SVal.add (SVal.fin 1) (SVal.exp (SVal.neg (SVal.fin z)))) = _
  rw [SVal.neg_fin, SVal.exp_fin, SVal.add_fin_fin]
  simp only [SVal.div]
  rw [if_neg (by positivity)]

/-- Witness for C2 at the spec's concrete scenario: the four entries of the
evaluated matrix are `e^1, e^1, e^1, e^0 = 1`. -/
theorem claim_C2_witness :
    entryM exLR.eval 0 0 = SVal.fin (Real.exp 1)
    ∧ entryM exLR.eval 0 1 = SVal.fin (Real.exp 1)
    ∧ entryM exLR.eval 1 0 = SVal.fin (Real.exp 1)
    ∧ entryM exLR.eval 1 1 = SVal.fin 1 := by
  refine ⟨?_, ?_, ?_, ?_⟩
  · rw [claim_C2.1 exLR 0 0 (by norm_num [exLR]) (by norm_num [exLR])]
    simp [exLR, dotS, Act.apply, SVal.exp]
  · rw [claim_C2.1 exLR 0 1 (by norm_num [exLR]) (by norm_num [exLR])]
    simp [exLR, dotS, Act.apply, SVal.exp]
  · rw [claim_C2.1 exLR 1 0 (by norm_num [exLR]) (by norm_num [exLR])]
    simp [exLR, dotS, Act.apply, SVal.exp]
  · rw [claim_C2.1 exLR 1 1 (by norm_num [exLR]) (by norm_num [exLR])]
    simp [exLR, dotS, Act.apply, SVal.exp]

/-- C6: `T` on a Low-Rank Score Matrix swaps the factor matrices and the label
sequences, keeps the activation, and is structurally involutive; on a composed
expression over dense operands a double transpose reproduces the evaluated
values exactly. -/
theorem claim_C6 :
    (∀ m : LowRankDataFrame,
      m.T = ⟨m.col_logits, m.ind_logits, m.columns, m.index, m.act⟩ ∧ m.T.T = m)
    ∧ ∀ (e : LazyScoreExpression) (R C : ℕ), denseOnly e → hasShape e R C → 0 < C →
        evalE (transposeE (transposeE e)) = evalE e := by
  refine ⟨fun m => ⟨rfl, ?_⟩, fun e R C hd h hC => by rw [transposeE_invol e R C hd h hC]⟩
  cases m
  rfl

/-- Witness for C6 on a node with one dense and one scalar child. -/
theorem claim_C6_witness : evalE (transposeE (transposeE exE)) = evalE exE := by
  refine claim_C6.2 exE 2 1 (by simp [denseOnly, exE]) ?_ (by norm_num)
  refine ⟨⟨by simp [exE], ?_⟩, Or.inl (by simp [exE, isScalarB])⟩
  intro r hr
  simp only [exE, List.mem_cons, List.not_mem_nil, or_false] at hr
  rcases hr with rfl | rfl <;> rfl

/-- C7: `get_batch_size` returns `ceil(n_rows / n_batches)` with
`n_batches = floor(n_rows / m) + 1` and `m = total_memory / 8 / n_cols * frac`,
where `total_memory` is the reported accelerator memory if present and
16 GB otherwise (stated for positive fractions and memory, where the claimed
formula itself is well defined; there Python `int()` truncation coincides with
the floor). -/
theorem claim_C7 (shape : ℕ × ℕ) (cudaMemory : Option ℚ) (frac : ℚ)
    (hc : 1 ≤ shape.2) (hf : 0 < frac) (hm : ∀ q, cudaMemory = some q → 0 < q) :
    get_batch_size shape cudaMemory frac = spec_batch_size shape cudaMemory frac := by
  have htm : 0 < cudaMemory.getD (16 * 10 ^ 9 : ℚ) := by
    cases cudaMemory with
    | none => norm_num
    | some q => exact hm q rfl
  have h2 : (0 : ℚ) < (shape.2 : ℚ) := by exact_mod_cast Nat.lt_of_lt_of_le Nat.zero_lt_one hc
  have hmax : 0 < cudaMemory.getD (16 * 10 ^ 9 : ℚ) / 8 / (shape.2 : ℚ) * frac := by
    apply mul_pos _ hf
    exact div_pos (by positivity) h2
  have hq : 0 ≤ (shape.1 : ℚ) / (cudaMemory.getD (16 * 10 ^ 9 : ℚ) / 8 / (shape.2 : ℚ) * frac) :=
    div_nonneg (Nat.cast_nonneg _) hmax.le
  unfold get_batch_size spec_batch_size ratTrunc
  rw [if_pos hq]

/-- Witness for C7 at a concrete shape with the default memory and fraction. -/
theorem claim_C7_witness :
    get_batch_size (100, 10) none (1 / 10) = spec_batch_size (100, 10) none (1 / 10) :=
  claim_C7 (100, 10) none (1 / 10) (by norm_num) (by norm_num) (fun q h => by simp at h)

/-- C8 counterexample: on a zero-row operand `score_op` silently returns the
initial `None` (the loop body never runs); the source has no failure path and
defines no `EmptyOperandError` anywhere, so the claim that aggregation over
zero batches fails with an error is false. -/
theorem claim_C8_counterexample :
    score_op (.dense []) SVal.add 3 = none := by
  simp [score_op, numRows, toBatches, foldScalars]

/-- C8 amended: `aggregate` over zero batches (a zero-row operand) returns
`None` rather than raising; no error is signalled. -/
theorem claim_C8_amended (S : LazyScoreExpression) (op : SVal → SVal → SVal) (bs : ℕ)
    (h : numRows S = 0) : score_op S op bs = none := by
  unfold score_op
  rw [h]
  simp [toBatches, foldScalars]

/-- Witness for the amended C8 at a concrete zero-row operand. -/
theorem claim_C8_witness : score_op (.dense []) SVal.mul 7 = none :=
  claim_C8_amended (.dense []) SVal.mul 7 rfl

/-- C10: a scalar row key is normalized to a one-element sequence, so
`row_slice(k)` is literally `row_slice([k])` on both the expression tree and
the Low-Rank Score Matrix, and the result is a matrix with exactly one row
(shape `(1, cols)`), not a one-dimensional vector. -/
theorem claim_C10 (S : LazyScoreExpression) (m : LowRankDataFrame) (R C k : ℕ)
    (hS : hasShape S R C) (hk : k < R) :
    getitemE S (.single k) = getitemE S (.seq [k])
    ∧ m.getitem (.single k) = m.getitem (.seq [k])
    ∧ (m.getitem (.single k)).shape = (1, m.col_logits.length)
    ∧ ∃ M, evalE (getitemE S (.single k)) = .mat M ∧ M.length = 1 := by
  refine ⟨rfl, rfl, rfl, ?_⟩
  obtain ⟨M, hM, hlen, hrect⟩ := evalE_shape S R C hS
  refine ⟨selRows M [k], ?_, rfl⟩
  have := rowSlice_evalE S R C [k] hS (by intro t ht; simp at ht; omega)
  rw [hM] at this
  exact this

/-- Witness for C10 on a concrete dense expression and low-rank matrix. -/
theorem claim_C10_witness :
    getitemE exE (.single 0) = getitemE exE (.seq [0])
    ∧ exLR.getitem (.single 0) = exLR.getitem (.seq [0])
    ∧ (exLR.getitem (.single 0)).shape = (1, exLR.col_logits.length)
    ∧ ∃ M, evalE (getitemE exE (.single 0)) = .mat M ∧ M.length = 1 := by
  refine claim_C10 exE exLR 2 1 0 ?_ (by norm_num)
  refine ⟨⟨by simp [exE], ?_⟩, Or.inl (by simp [exE, isScalarB])⟩
  intro r hr
  simp only [exE, List.mem_cons, List.not_mem_nil, or_false] at hr
  rcases hr with rfl | rfl <;> rfl

/-- C9: every low-rank-to-low-rank operation preserves the `__post_init__`
invariants: `T` at the same hidden rank, row slicing with valid indices,
collation of a nonempty batch of well-formed frames, and `reindex`, which
extends the hidden rank by one (the activation field stays in `{exp, sigmoid}`
by the `Act` enumeration itself). -/
theorem claim_C9 :
    (∀ (m : LowRankDataFrame) (k : ℕ), m.wfAt k → m.T.wfAt k)
    ∧ (∀ (m : LowRankDataFrame) (k : ℕ) (ks : List ℕ), m.wfAt k →
        (∀ t ∈ ks, t < m.ind_logits.length) → (m.getitem (.seq ks)).wfAt k)
    ∧ (∀ (batch : List LowRankDataFrame) (k : ℕ), batch ≠ [] →
        (∀ x ∈ batch, x.wfAt k) → (LowRankDataFrame.collate_fn batch).wfAt k)
    ∧ (∀ (m : LowRankDataFrame) (k : ℕ) (labels : List ℕ) (v : SVal), m.wfAt k →
        m.hidden_dim = k → (m.reindex labels v).wfAt (k + 1)) := by
  refine ⟨fun m k h => ⟨h.2.1, h.1, h.2.2.2, h.2.2.1⟩, ?_, ?_, ?_⟩
  · intro m k ks h hks
    refine ⟨?_, h.2.1, by simp [LowRankDataFrame.getitem, selRows], h.2.2.2⟩
    intro r hr
    obtain ⟨t, ht, rfl⟩ := List.mem_map.1 hr
    exact h.1 _ (getD_mem _ _ _ (hks t ht))
  · intro batch k hne hwf
    obtain ⟨b0, bs, rfl⟩ := List.exists_cons_of_ne_nil hne
    refine ⟨?_, (hwf b0 (by simp)).2.1, ?_, (hwf b0 (by simp)).2.2.2⟩
    · intro r hr
      obtain ⟨l, hl, hrl⟩ := List.mem_flatten.1 hr
      obtain ⟨x, hx, rfl⟩ := List.mem_map.1 hl
      exact (hwf x hx).1 r hrl
    · show ((b0 :: bs).map LowRankDataFrame.ind_logits).flatten.length
        = ((b0 :: bs).map LowRankDataFrame.index).flatten.length
      rw [List.length_flatten, List.length_flatten, List.map_map, List.map_map]
      congr 1
      refine List.map_congr_left fun x hx => ?_
      simp only [Function.comp_apply]
      exact (hwf x hx).2.2.1
  · intro m k labels v h hk
    refine ⟨?_, ?_, by simp [LowRankDataFrame.reindex, selRows], by
      simpa [LowRankDataFrame.reindex] using h.2.2.2⟩
    · intro r hr
      obtain ⟨t, ht, rfl⟩ := List.mem_map.1 hr
      obtain ⟨lb, hlb, rfl⟩ := List.mem_map.1 ht
      have hb : m.index.indexOf lb < ((m.ind_logits.map fun r => r ++ [SVal.fin 0])
          ++ [List.replicate m.hidden_dim (SVal.fin 0) ++ [SVal.log v]]).length := by
        have h5 : m.index.indexOf lb ≤ m.index.length := List.indexOf_le_length
        have h6 := h.2.2.1
        simp only [List.length_append, List.length_map, List.length_singleton]
        omega
      refine ?_
      have hmem := getD_mem _ _ ([] : List SVal) hb
      rw [List.mem_append] at hmem
      rcases hmem with hmem | hmem
      · obtain ⟨u, hu, he⟩ := List.mem_map.1 hmem
        rw [← he]
        simp [h.1 u hu]
      · rw [List.mem_singleton.1 hmem]
        simp [hk]
    · intro r hr
      obtain ⟨u, hu, rfl⟩ := List.mem_map.1 hr
      simp [h.2.1 u hu]

/-- Witness for C9: the reindex clause applied to the concrete matrix, moving
the hidden rank from 2 to 3. -/
theorem claim_C9_witness : (exLR.reindex [5] (SVal.fin 0)).wfAt 3 := by
  refine claim_C9.2.2.2 exLR 2 [5] (SVal.fin 0) ?_ rfl
  refine ⟨?_, ?_, rfl, rfl⟩ <;>
  · intro r hr
    simp only [exLR, List.mem_cons, List.not_mem_nil, or_false] at hr
    rcases hr with rfl | rfl <;> rfl

/-- C4: evaluating an `add`/`multiply` node equals the elementwise (scalar
broadcasting) combination of the children's evaluations, for scalar, dense,
sparse, low-rank and nested operands in every combination. -/
theorem claim_C4 (o : SOp) (a b : LazyScoreExpression) (R C i j : ℕ)
    (ha : isScalarB a = true ∨ hasShape a R C) (hb : isScalarB b = true ∨ hasShape b R C)
    (hi : i < R) (hj : j < C) :
    resEntry (evalE (.node o a b)) i j
      = o.fn (resEntry (evalE a) i j) (resEntry (evalE b) i j) := by
  have hA : (∃ v, evalE a = .scalar v)
      ∨ ∃ M, evalE a = .mat M ∧ M.length = R ∧ rect M C := by
    rcases ha with h | h
    · cases a with
      | scalar v => exact Or.inl ⟨v, rfl⟩
      | dense d => simp [isScalarB] at h
      | sparse d => simp [isScalarB] at h
      | lowrank mm => simp [isScalarB] at h
      | node o2 x y => simp [isScalarB] at h
    · exact Or.inr (evalE_shape a R C h)
  have hB : (∃ v, evalE b = .scalar v)
      ∨ ∃ M, evalE b = .mat M ∧ M.length = R ∧ rect M C := by
    rcases hb with h | h
    · cases b with
      | scalar v => exact Or.inl ⟨v, rfl⟩
      | dense d => simp [isScalarB] at h
      | sparse d => simp [isScalarB] at h
      | lowrank mm => simp [isScalarB] at h
      | node o2 x y => simp [isScalarB] at h
    · exact Or.inr (evalE_shape b R C h)
  rcases hA with ⟨va, hva⟩ | ⟨Ma, hMa, hla, hra⟩ <;>
    rcases hB with ⟨vb, hvb⟩ | ⟨Mb, hMb, hlb, hrb⟩
  · simp [evalE, hva, hvb, broadcast2, resEntry]
  · simp only [evalE, hva, hMb, broadcast2, resEntry, entryM]
    rw [getD_map _ Mb i [] [] (hlb ▸ hi),
      getD_map _ (Mb.getD i []) j (SVal.fin 0) (SVal.fin 0)
        (by rw [hrb _ (getD_mem _ _ _ (hlb ▸ hi))]; exact hj)]
  · simp only [evalE, hvb, hMa, broadcast2, resEntry, entryM]
    rw [getD_map _ Ma i [] [] (hla ▸ hi),
      getD_map _ (Ma.getD i []) j (SVal.fin 0) (SVal.fin 0)
        (by rw [hra _ (getD_mem _ _ _ (hla ▸ hi))]; exact hj)]
  · simp only [evalE, hMa, hMb, broadcast2, resEntry, entryM]
    rw [getD_zipWith _ Ma Mb i [] [] [] (hla ▸ hi) (hlb ▸ hi),
      getD_zipWith o.fn (Ma.getD i []) (Mb.getD i []) j (SVal.fin 0) (SVal.fin 0) (SVal.fin 0)
        (by rw [hra _ (getD_mem _ _ _ (hla ▸ hi))]; exact hj)
        (by rw [hrb _ (getD_mem _ _ _ (hlb ▸ hi))]; exact hj)]

/-- Witness for C4: a dense-plus-low-rank sum at entry (0, 0). -/
theorem claim_C4_witness :
    resEntry (evalE (.node .add (.dense [[SVal.fin 2], [SVal.fin 3]])
        (.scalar (SVal.fin 4)))) 0 0
      = SOp.add.fn (resEntry (evalE (.dense [[SVal.fin 2], [SVal.fin 3]])) 0 0)
          (resEntry (evalE (.scalar (SVal.fin 4))) 0 0) := by
  refine claim_C4 .add _ _ 2 1 0 0 (Or.inr ⟨rfl, ?_⟩) (Or.inl rfl) (by norm_num) (by norm_num)
  intro r hr
  simp only [List.mem_cons, List.not_mem_nil, or_false] at hr
  rcases hr with rfl | rfl <;> rfl

/-- C5: slicing all rows of a Low-Rank Score Matrix in consecutive batches of
any size `b ≥ 1` and collating the slices reconstructs the matrix
structurally, hence its evaluation equals the original's. -/
theorem claim_C5 (m : LowRankDataFrame) (b : ℕ) (hb : 1 ≤ b)
    (hR : 0 < m.ind_logits.length) (hlen : m.index.length = m.ind_logits.length) :
    (LowRankDataFrame.collate_fn ((toBatches b (List.range m.ind_logits.length)).map
        fun ks => m.getitem (.seq ks))).eval = m.eval := by
  have hrec : LowRankDataFrame.collate_fn ((toBatches b (List.range m.ind_logits.length)).map
      fun ks => m.getitem (.seq ks)) = m := by
    obtain ⟨B0, Bs, hB⟩ : ∃ B0 Bs, toBatches b (List.range m.ind_logits.length) = B0 :: Bs := by
      cases hT : toBatches b (List.range m.ind_logits.length) with
      | nil =>
        exfalso
        have h1 := flatten_toBatches b (List.range m.ind_logits.length)
        rw [hT] at h1
        simp only [List.flatten_nil] at h1
        have h2 := List.range_eq_nil.1 h1.symm
        omega
      | cons B0 Bs => exact ⟨B0, Bs, rfl⟩
    have hind : (((toBatches b (List.range m.ind_logits.length)).map
        (fun ks => m.getitem (.seq ks))).map LowRankDataFrame.ind_logits).flatten
        = m.ind_logits := by
      rw [List.map_map]
      show ((toBatches b (List.range m.ind_logits.length)).map
        (List.map fun t => m.ind_logits.getD t [])).flatten = m.ind_logits
      rw [← List.map_flatten, flatten_toBatches]
      exact range_map_getD [] m.ind_logits
    have hix : (((toBatches b (List.range m.ind_logits.length)).map
        (fun ks => m.getitem (.seq ks))).map LowRankDataFrame.index).flatten
        = m.index := by
      rw [List.map_map]
      show ((toBatches b (List.range m.ind_logits.length)).map
        (List.map fun t => m.index.getD t 0)).flatten = m.index
      rw [← List.map_flatten, flatten_toBatches, ← hlen]
      exact range_map_getD 0 m.index
    have hhead : ((toBatches b (List.range m.ind_logits.length)).map
        (fun ks => m.getitem (.seq ks))).headD ⟨[], [], [], [], Act.exp⟩
        = m.getitem (.seq B0) := by
      rw [hB]
      rfl
    have heta : m = ⟨m.ind_logits, m.col_logits, m.index, m.columns, m.act⟩ := rfl
    rw [heta]
    unfold LowRankDataFrame.collate_fn
    simp only [LowRankDataFrame.mk.injEq]
    exact ⟨hind, by rw [hhead]; rfl, hix, by rw [hhead]; rfl, by rw [hhead]; rfl⟩
  rw [hrec]

/-- Witness for C5 at batch size 1 on the concrete 2-by-2 matrix. -/
theorem claim_C5_witness :
    (LowRankDataFrame.collate_fn ((toBatches 1 (List.range exLR.ind_logits.length)).map
        fun ks => exLR.getitem (.seq ks))).eval = exLR.eval :=
  claim_C5 exLR 1 le_rfl (by norm_num [exLR]) (by norm_num [exLR])

/-- A one-entry matrix with sigmoid activation, for the C1 counterexample. -/
def exSig : LowRankDataFrame := ⟨[[SVal.fin 0]], [[SVal.fin 0]], [0], [0], Act.sigmoid⟩

/-- A one-entry matrix with exp activation and an absent reindex target. -/
def exAbs : LowRankDataFrame := ⟨[[SVal.fin 2]], [[SVal.fin 3]], [5], [7], Act.exp⟩

/-- C1 counterexample: with `sigmoid` activation, reindexing to an absent
label with `fill_value = 1` does not produce `1`: the synthetic row evaluates
to `sigmoid (log 1) = 1/2`, refuting the claim for the sigmoid case. -/
theorem claim_C1_counterexample :
    entryM ((exSig.reindex [1] (SVal.fin 1)).eval) 0 0 ≠ SVal.fin 1 := by
  have h1 : entryM ((exSig.reindex [1] (SVal.fin 1)).eval) 0 0 = SVal.fin (1 / 2) := by
    norm_num [exSig, LowRankDataFrame.reindex, LowRankDataFrame.eval,
      LowRankDataFrame.hidden_dim, selRows, entryM, dotS, Act.apply, SVal.sigmoid,
      SVal.log, SVal.div, SVal.exp, SVal.neg, SVal.add, SVal.mul, Real.log_one, Real.exp_zero]
  rw [h1]
  intro hcon
  rw [SVal.fin.injEq] at hcon
  norm_num at hcon

/-- C1 amended: `reindex(labels, fill_value)` keeps the evaluated values of
every present label exactly and fills every absent label's row with exactly
`fill_value`, provided the activation inverts the log-augmentation on the fill
value: for `exp` any nonnegative or NaN fill (including 0, where
`log 0 = -inf` is tolerated); for `sigmoid` only fills `0` and NaN.  The
original row labels are distinct (the source's pandas reindex requires a
unique index) and the column factors are finite reals. -/
theorem claim_C1_amended (m : LowRankDataFrame) (k : ℕ) (v : SVal) (labels : List ℕ)
    (i j : ℕ) (hwf : m.wfAt k) (hfill : FillOk m.act v) (hdup : m.index.Nodup)
    (hfin : ∀ r ∈ m.col_logits, ∀ x ∈ r, x.isFinite = true)
    (hi : i < labels.length) (hj : j < m.col_logits.length) :
    entryM ((m.reindex labels v).eval) i j =
      if labels.getD i 0 ∈ m.index
      then entryM m.eval (m.index.indexOf (labels.getD i 0)) j
      else v := by
  obtain ⟨h1, h2, h3, h4⟩ := hwf
  have hA : entryM ((m.reindex labels v).eval) i j
      = m.act.apply (dotS
          (((m.ind_logits.map fun r => r ++ [SVal.fin 0])
            ++ [List.replicate m.hidden_dim (SVal.fin 0) ++ [SVal.log v]]).getD
              (m.index.indexOf (labels.getD i 0)) [])
          ((m.col_logits.getD j []) ++ [SVal.fin 1])) := by
    unfold LowRankDataFrame.reindex LowRankDataFrame.eval entryM selRows
    simp only [List.map_map]
    rw [getD_map _ labels i 0 ([] : List SVal) hi]
    simp only [Function.comp_apply, List.map_map]
    rw [getD_map _ m.col_logits j [] (SVal.fin 0) hj]
    rfl
  by_cases hmem : labels.getD i 0 ∈ m.index
  · rw [if_pos hmem]
    have hpR : m.index.indexOf (labels.getD i 0) < m.ind_logits.length := by
      rw [h3]
      exact List.indexOf_lt_length.2 hmem
    have hrow : ((m.ind_logits.map fun r => r ++ [SVal.fin 0])
        ++ [List.replicate m.hidden_dim (SVal.fin 0) ++ [SVal.log v]]).getD
          (m.index.indexOf (labels.getD i 0)) []
        = (m.ind_logits.getD (m.index.indexOf (labels.getD i 0)) []) ++ [SVal.fin 0] := by
      rw [List.getD_append _ _ _ _ (by simpa using hpR)]
      exact getD_map _ m.ind_logits _ [] [] hpR
    rw [hA, hrow, dotS_pad _ _ (by
        rw [h1 _ (getD_mem _ _ _ hpR), h2 _ (getD_mem _ _ _ hj)]),
      eval_entry m _ j hpR hj]
  · rw [if_neg hmem]
    have hpR : m.index.indexOf (labels.getD i 0) = m.ind_logits.length := by
      rw [h3]
      exact List.indexOf_eq_length.2 hmem
    have hrow : ((m.ind_logits.map fun r => r ++ [SVal.fin 0])
        ++ [List.replicate m.hidden_dim (SVal.fin 0) ++ [SVal.log v]]).getD
          (m.index.indexOf (labels.getD i 0)) []
        = List.replicate m.hidden_dim (SVal.fin 0) ++ [SVal.log v] := by
      rw [List.getD_append_right _ _ _ _ (by simpa using hpR.ge), List.length_map, hpR,
        Nat.sub_self]
      rfl
    have hK : m.hidden_dim = k := by
      refine hidden_dim_eq h1 h2 ?_
      intro h0
      rw [h0] at hj
      simp at hj
    rw [hA, hrow, hK,
      dotS_synth _ k (h2 _ (getD_mem _ _ _ hj)) (hfin _ (getD_mem _ _ _ hj)) v,
      apply_log m.act v hfill]

/-- Witness for the amended C1: reindexing the exp matrix to the absent label
9 with fill 0 yields exactly 0. -/
theorem claim_C1_witness :
    entryM ((exAbs.reindex [9] (SVal.fin 0)).eval) 0 0 = SVal.fin 0 := by
  have h := claim_C1_amended exAbs 1 (SVal.fin 0) [9] 0 0
    (by
      refine ⟨?_, ?_, rfl, rfl⟩ <;>
      · intro r hr
        simp only [exAbs, List.mem_cons, List.not_mem_nil, or_false] at hr
        subst hr
        rfl)
    le_rfl
    (by simp [exAbs])
    (by
      intro r hr
      simp only [exAbs, List.mem_cons, List.not_mem_nil, or_false] at hr
      subst hr
      intro x hx
      simp only [List.mem_cons, List.not_mem_nil, or_false] at hx
      subst hx
      rfl)
    (by norm_num)
    (by norm_num [exAbs])
  rw [h]
  norm_num [exAbs]

/-- C3: for every expression of positive shape, batched `score_op` with any
batch size `bs ≥ 1` equals evaluating the whole expression once and reducing
every entry with `op`, whenever `op` is associative and commutative. -/
theorem claim_C3 (S : LazyScoreExpression) (R C : ℕ) (op : SVal → SVal → SVal) (bs : ℕ)
    (hS : hasShape S R C) (hbs : 1 ≤ bs) (hR : 0 < R) (hC : 0 < C)
    (hassoc : ∀ x y z, op (op x y) z = op x (op y z))
    (hcomm : ∀ x y, op x y = op y x) :
    score_op S op bs = reduce1 op (entriesOf (evalE S)) := by
  obtain ⟨M, hM, hlen, hrect⟩ := evalE_shape S R C hS
  have hnum : numRows S = R := numRows_eq S R C hS
  unfold score_op
  rw [hnum]
  have hbatch : ∀ ks ∈ toBatches bs (List.range R),
      reduce1 op (entriesOf (evalE (rowSliceL S ks)))
        = reduce1 op ((selRows M ks).flatten) := by
    intro ks hks
    have hrs := rowSlice_evalE S R C ks hS
      (fun t ht => List.mem_range.1 (toBatches_subset bs _ hks ht))
    rw [hM] at hrs
    rw [hrs]
    rfl
  rw [List.map_congr_left hbatch]
  have hmm2 : (toBatches bs (List.range R)).map (fun ks => reduce1 op ((selRows M ks).flatten))
      = ((toBatches bs (List.range R)).map fun ks => (selRows M ks).flatten).map
          (reduce1 op) := by
    rw [List.map_map]
    rfl
  rw [hmm2]
  obtain ⟨B0, Bs, hB⟩ : ∃ B0 Bs, toBatches bs (List.range R) = B0 :: Bs := by
    cases hT : toBatches bs (List.range R) with
    | nil =>
      exfalso
      have hfl := flatten_toBatches bs (List.range R)
      rw [hT] at hfl
      simp only [List.flatten_nil] at hfl
      have h9 := List.range_eq_nil.1 hfl.symm
      omega
    | cons B0 Bs => exact ⟨B0, Bs, rfl⟩
  rw [hB]
  have hE : ∀ E ∈ ((B0 :: Bs).map fun ks => (selRows M ks).flatten), E ≠ [] := by
    intro E hE0
    obtain ⟨ks, hks, rfl⟩ := List.mem_map.1 hE0
    have hks2 : ks ∈ toBatches bs (List.range R) := by rw [hB]; exact hks
    have hk0 : ks ≠ [] := toBatches_ne_nil bs (List.range R) ks hks2
    obtain ⟨k0, ks2, rfl⟩ := List.exists_cons_of_ne_nil hk0
    intro hcon
    rw [List.flatten_eq_nil_iff] at hcon
    have hk0R : k0 < R := List.mem_range.1 (toBatches_subset bs _ hks2 (by simp))
    have hrow : M.getD k0 [] = [] := hcon _ (by simp [selRows])
    have hmem : M.getD k0 [] ∈ M := getD_mem _ _ _ (by omega)
    have hlen2 := hrect _ hmem
    rw [hrow] at hlen2
    simp at hlen2
    omega
  have hE0 : (selRows M B0).flatten ≠ [] := hE _ (by simp)
  obtain ⟨e0, es0, hE0eq⟩ := List.exists_cons_of_ne_nil hE0
  have hMf : ((B0 :: Bs).map fun ks => (selRows M ks).flatten).flatten = M.flatten := by
    have h7 : ((B0 :: Bs).map fun ks => (selRows M ks).flatten)
        = (((B0 :: Bs).map fun ks => selRows M ks).map List.flatten) := by
      rw [List.map_map]
      rfl
    rw [h7, ← List.flatten_flatten]
    congr 1
    show ((B0 :: Bs).map (List.map fun t => M.getD t [])).flatten = M
    rw [← List.map_flatten, ← hB, flatten_toBatches, ← hlen]
    exact range_map_getD [] M
  rw [hM]
  show foldScalars op none
      (((B0 :: Bs).map fun ks => (selRows M ks).flatten).map (reduce1 op))
      = reduce1 op M.flatten
  rw [← hMf]
  simp only [List.map_cons, List.flatten_cons, hE0eq]
  have hstep : foldScalars op none (reduce1 op (e0 :: es0)
      :: ((Bs.map fun ks => (selRows M ks).flatten).map (reduce1 op)))
      = foldScalars op (some (es0.foldl op e0))
        ((Bs.map fun ks => (selRows M ks).flatten).map (reduce1 op)) := rfl
  rw [hstep, foldScalars_batches op hassoc _ _ (fun E hEmem => hE E (by simp [hEmem]))]
  show some _ = some ((es0 ++ (Bs.map fun ks => (selRows M ks).flatten).flatten).foldl op e0)
  rw [List.foldl_append]

/-- Witness for C3: batch size 1 over a one-row, two-column dense matrix with
the (associative, commutative) IEEE addition. -/
theorem claim_C3_witness :
    score_op (.dense [[SVal.fin 1, SVal.fin 2]]) SVal.add 1
      = reduce1 SVal.add (entriesOf (evalE (.dense [[SVal.fin 1, SVal.fin 2]]))) := by
  refine claim_C3 _ 1 2 SVal.add 1 ⟨rfl, ?_⟩ le_rfl (by norm_num) (by norm_num)
    SVal.add_assoc2 SVal.add_comm2
  intro r hr
  simp only [List.mem_cons, List.not_mem_nil, or_false] at hr
  subst hr
  rfl

end

end ScoreArray
